import Mathlib

/-!
Verification of the DFPWM encoder of src/main.py.

The Python class DFPWMCodec is embedded as a Lean structure; its two
methods, the per-sample context update and the buffer compressor, are
embedded as pure functions that return the updated state.  Python
integers are unbounded, so integer fields are modelled as Int; the
right shift of a Python int is an arithmetic (sign-extending) shift,
which is exactly Int.shiftRight, written x >>> n.
-/

/-- State of the codec, mirroring the fields set in DFPWMCodec.__post_init__:
mode flag, the three mode constants, and the mutable response/level/lastbit. -/
structure DFPWMCodec where
  dfpwm_old : Bool
  RESP_INC : Int
  RESP_DEC : Int
  RESP_PREC : Nat
  response : Int
  level : Int
  lastbit : Bool
deriving DecidableEq

/-- Construction of a codec, mirroring DFPWMCodec(newdfpwm) and its
__post_init__: newdfpwm selects the current constants (1, 1, 10), otherwise
the legacy constants (7, 20, 8); response, level start at 0, lastbit false. -/
def mkCodec (newdfpwm : Bool) : DFPWMCodec :=
  { dfpwm_old := !newdfpwm
    RESP_INC := if newdfpwm then 1 else 7
    RESP_DEC := if newdfpwm then 1 else 20
    RESP_PREC := if newdfpwm then 10 else 8
    response := 0
    level := 0
    lastbit := false }

/-- target = 127 if curbit else -128 (from _ctx_update). -/
def targetOf (curbit : Bool) : Int :=
  if curbit then 127 else -128

/-- The new level computed by _ctx_update: the arithmetic-shift average step
toward the target, then the zero-progress nudge. -/
def nlevelOf (c : DFPWMCodec) (curbit : Bool) : Int :=
  let target := targetOf curbit
  let nl := c.level + ((c.response * (target - c.level) + 2 ^ (c.RESP_PREC - 1)) >>> c.RESP_PREC)
  if nl = c.level ∧ c.level ≠ target then nl + (if curbit then 1 else -1) else nl

/-- The response target and delta chosen by _ctx_update from the bit history:
(2^RESP_PREC - 1, RESP_INC) when curbit == lastbit, else (0, RESP_DEC). -/
def rparamsOf (c : DFPWMCodec) (curbit : Bool) : Int × Int :=
  if curbit == c.lastbit then (2 ^ c.RESP_PREC - 1, c.RESP_INC) else (0, c.RESP_DEC)

/-- The new response of _ctx_update before the precision floor clamp:
legacy mode steps toward rtarget by the shifted delta, current mode keeps
the response; then the zero-progress nudge is applied in both modes. -/
def nresponsePre (c : DFPWMCodec) (curbit : Bool) : Int :=
  let rtarget := (rparamsOf c curbit).1
  let rdelta := (rparamsOf c curbit).2
  let nr := if c.dfpwm_old then c.response + ((rdelta * (rtarget - c.response) + 128) >>> (8 : Nat)) else c.response
  if nr = c.response ∧ c.response ≠ rtarget then nr + (if curbit == c.lastbit then 1 else -1) else nr

/-- min_resp = 2 << (RESP_PREC - 8) (from _ctx_update). -/
def minResponse (c : DFPWMCodec) : Int :=
  2 * 2 ^ (c.RESP_PREC - 8)

/-- The whole per-sample context update _ctx_update(curbit): commit the
clamped response, the current bit and the new level. -/
def ctx_update (c : DFPWMCodec) (curbit : Bool) : DFPWMCodec :=
  let nr := nresponsePre c curbit
  let nr := if c.RESP_PREC > 8 ∧ nr < minResponse c then minResponse c else nr
  { c with response := nr, lastbit := curbit, level := nlevelOf c curbit }

/-- inlevel = b - 256 if b > 127 else b: two=s-complement reading of one
input byte (from compress_pcm_s8_to_dfpwm). -/
def toSigned (b : Nat) : Int :=
  if b > 127 then (b : Int) - 256 else (b : Int)

/-- curbit = (inlevel > level) or (inlevel == level and level == 127)
(from compress_pcm_s8_to_dfpwm). -/
def curbitOf (c : DFPWMCodec) (inlevel : Int) : Bool :=
  decide (inlevel > c.level) || (decide (inlevel = c.level) && decide (c.level = 127))

/-- d = (d >> 1) + (128 if curbit else 0): fold one decision bit into the
byte accumulator (from compress_pcm_s8_to_dfpwm). -/
def packStep (d : Nat) (curbit : Bool) : Nat :=
  (d >>> 1) + (if curbit then 128 else 0)

/-- One iteration of the inner 8-sample loop of compress_pcm_s8_to_dfpwm:
read the next byte, decide the bit, pack it, update the context. -/
def encStep (p : Nat × DFPWMCodec) (b : Nat) : Nat × DFPWMCodec :=
  let curbit := curbitOf p.2 (toSigned b)
  (packStep p.1 curbit, ctx_update p.2 curbit)

/-- compress_pcm_s8_to_dfpwm(pcm_s8): consume the input 8 bytes at a time,
emitting (d & 0xFF) per full group; the trailing len % 8 bytes (the lists the
second arm matches) are never read.  Returns the output together with the
mutated codec state. -/
def compress_pcm_s8_to_dfpwm (c : DFPWMCodec) : List Nat → List Nat × DFPWMCodec
  | b0 :: b1 :: b2 :: b3 :: b4 :: b5 :: b6 :: b7 :: rest =>
    let r := [b0, b1, b2, b3, b4, b5, b6, b7].foldl encStep (0, c)
    let s := compress_pcm_s8_to_dfpwm r.2 rest
    ((r.1 &&& 255) :: s.1, s.2)
  | _ => ([], c)

/-- Packing a list of decision bits into a byte accumulator starting from 0,
exactly as the inner loop of compress_pcm_s8_to_dfpwm does over one group. -/
def packBits (bs : List Bool) : Nat :=
  bs.foldl packStep 0

/-- The sequence of decision bits the encoder produces on a byte list from a
given state (each decision feeds the context update that shapes the next). -/
def groupBits (c : DFPWMCodec) : List Nat → List Bool
  | [] => []
  | b :: rest =>
    let cb := curbitOf c (toSigned b)
    cb :: groupBits (ctx_update c cb) rest

/-- Modelled from the spec: the encoder viewed as a transform on signed
samples (the repository only has the byte-buffer entry point
compress_pcm_s8_to_dfpwm; the spec describes the per-sample algorithm on
Sample = signed integer in [-128, 127]).  One step on one sample. -/
def encStepSample (p : Nat × DFPWMCodec) (s : Int) : Nat × DFPWMCodec :=
  let curbit := curbitOf p.2 s
  (packStep p.1 curbit, ctx_update p.2 curbit)

/-- Modelled from the spec: the whole transform on a sequence of signed
samples, 8 samples per output byte, remainder dropped. -/
def compressSamples (c : DFPWMCodec) : List Int → List Nat × DFPWMCodec
  | s0 :: s1 :: s2 :: s3 :: s4 :: s5 :: s6 :: s7 :: rest =>
    let r := [s0, s1, s2, s3, s4, s5, s6, s7].foldl encStepSample (0, c)
    let s := compressSamples r.2 rest
    ((r.1 &&& 255) :: s.1, s.2)
  | _ => ([], c)

/-! Projections of the context update, used throughout. -/

lemma ctx_update_response (c : DFPWMCodec) (b : Bool) :
    (ctx_update c b).response =
      (if c.RESP_PREC > 8 ∧ nresponsePre c b < minResponse c then minResponse c
       else nresponsePre c b) := rfl

lemma ctx_update_level (c : DFPWMCodec) (b : Bool) :
    (ctx_update c b).level = nlevelOf c b := rfl

lemma ctx_update_lastbit (c : DFPWMCodec) (b : Bool) :
    (ctx_update c b).lastbit = b := rfl

lemma ctx_update_prec (c : DFPWMCodec) (b : Bool) :
    (ctx_update c b).RESP_PREC = c.RESP_PREC := rfl

lemma ctx_update_old (c : DFPWMCodec) (b : Bool) :
    (ctx_update c b).dfpwm_old = c.dfpwm_old := rfl

lemma ctx_update_inc (c : DFPWMCodec) (b : Bool) :
    (ctx_update c b).RESP_INC = c.RESP_INC := rfl

lemma ctx_update_dec (c : DFPWMCodec) (b : Bool) :
    (ctx_update c b).RESP_DEC = c.RESP_DEC := rfl

/-! List-shape helpers for the 8-at-a-time recursion. -/

lemma compress_cons (c : DFPWMCodec) (b0 b1 b2 b3 b4 b5 b6 b7 : Nat) (rest : List Nat) :
    compress_pcm_s8_to_dfpwm c (b0 :: b1 :: b2 :: b3 :: b4 :: b5 :: b6 :: b7 :: rest) =
      (let r := [b0, b1, b2, b3, b4, b5, b6, b7].foldl encStep (0, c)
       let s := compress_pcm_s8_to_dfpwm r.2 rest
       ((r.1 &&& 255) :: s.1, s.2)) := rfl

lemma length_lt_of_no_group (t : List Nat)
    (h : ∀ (b0 b1 b2 b3 b4 b5 b6 b7 : Nat) (rest : List Nat),
      t = b0 :: b1 :: b2 :: b3 :: b4 :: b5 :: b6 :: b7 :: rest → False) :
    t.length < 8 := by
  rcases t with _ | ⟨a0, t⟩
  · simp
  rcases t with _ | ⟨a1, t⟩
  · simp
  rcases t with _ | ⟨a2, t⟩
  · simp
  rcases t with _ | ⟨a3, t⟩
  · simp
  rcases t with _ | ⟨a4, t⟩
  · simp
  rcases t with _ | ⟨a5, t⟩
  · simp
  rcases t with _ | ⟨a6, t⟩
  · simp
  rcases t with _ | ⟨a7, t⟩
  · simp
  exact (h a0 a1 a2 a3 a4 a5 a6 a7 t rfl).elim

lemma compress_short (c : DFPWMCodec) (l : List Nat) (h : l.length < 8) :
    compress_pcm_s8_to_dfpwm c l = ([], c) := by
  rcases l with _ | ⟨a0, l⟩
  · rfl
  rcases l with _ | ⟨a1, l⟩
  · rfl
  rcases l with _ | ⟨a2, l⟩
  · rfl
  rcases l with _ | ⟨a3, l⟩
  · rfl
  rcases l with _ | ⟨a4, l⟩
  · rfl
  rcases l with _ | ⟨a5, l⟩
  · rfl
  rcases l with _ | ⟨a6, l⟩
  · rfl
  rcases l with _ | ⟨a7, l⟩
  · rfl
  simp only [List.length_cons] at h
  omega

/-- Claim C3: the decision bit is true if and only if sample > level, or
sample = level and level = 127; and a constant-0 input from a fresh
current-mode state (level = 0) decides bit = false on its first sample. -/
theorem c3_bit_decision :
    (∀ (c : DFPWMCodec) (s : Int),
      curbitOf c s = true ↔ (s > c.level ∨ (s = c.level ∧ c.level = 127))) ∧
    curbitOf (mkCodec true) (toSigned 0) = false := by
  refine ⟨fun c s => ?_, by decide⟩
  simp [curbitOf]

/-- Claim C4: the new predictor level equals
level + fdiv (response * (target - level) + 2 ^ (RESP_PREC - 1)) (2 ^ RESP_PREC),
where fdiv rounds toward negative infinity (the arithmetic right shift of the
code), and when that result equals the old level while level differs from the
target, the level is nudged by +1 when the bit is true and -1 when false. -/
theorem c4_level_update (c : DFPWMCodec) (curbit : Bool) :
    nlevelOf c curbit =
      (let target := targetOf curbit
       let raw := c.level +
         Int.fdiv (c.response * (target - c.level) + 2 ^ (c.RESP_PREC - 1)) (2 ^ c.RESP_PREC)
       if raw = c.level ∧ c.level ≠ target then raw + (if curbit then 1 else -1) else raw) := by
  have h2 : (0 : Int) ≤ 2 ^ c.RESP_PREC := by positivity
  have hf : ∀ a : Int, Int.fdiv a (2 ^ c.RESP_PREC) = a / 2 ^ c.RESP_PREC :=
    fun a => Int.fdiv_eq_ediv a h2
  simp only [nlevelOf, Int.shiftRight_eq_div_pow, hf]
  norm_cast

/-- Claim C5: in current mode (RESP_PREC = 10) the response is at least 8
after every context update, so the floor 2 * 2 ^ (RESP_PREC - 8) = 8 is
established by the first update and preserved by all later ones. -/
theorem c5_response_floor (c : DFPWMCodec) (curbit : Bool) (h : c.RESP_PREC = 10) :
    8 ≤ (ctx_update c curbit).response := by
  rw [ctx_update_response]
  simp only [minResponse, h]
  norm_num
  split <;> omega

/-- Witness for C5 at the fresh current-mode codec and a false bit. -/
theorem c5_response_floor_witness : 8 ≤ (ctx_update (mkCodec true) false).response :=
  c5_response_floor (mkCodec true) false rfl

/-- Claim C1 (counterexample): in current mode the pre-clamp new response is
not always the old response; at the fresh current-mode state with a false bit
the zero-progress nudge changes it (from 0 to 1) before the floor clamp. -/
theorem c1_counterexample :
    (mkCodec true).dfpwm_old = false ∧
    nresponsePre (mkCodec true) false ≠ (mkCodec true).response := by
  decide

/-- Claim C1 (amended): in current mode the adaptation step itself leaves the
response unchanged, but the zero-progress nudge still applies before the floor
clamp: the pre-clamp response equals the old response when it already equals
the response target, and otherwise is stepped by +1 (bit equal to lastbit) or
-1 (otherwise). -/
theorem c1_response_nudge (c : DFPWMCodec) (curbit : Bool) (h : c.dfpwm_old = false) :
    nresponsePre c curbit =
      (if c.response = (rparamsOf c curbit).1 then c.response
       else c.response + (if curbit == c.lastbit then 1 else -1)) := by
  simp only [nresponsePre, h]
  by_cases hrt : c.response = (rparamsOf c curbit).1
  · simp [hrt]
  · simp [hrt]

/-- Witness for the amended C1 at the fresh current-mode codec. -/
theorem c1_response_nudge_witness :
    (mkCodec true).dfpwm_old = false ∧ nresponsePre (mkCodec true) false = 1 := by
  refine ⟨rfl, ?_⟩
  rw [c1_response_nudge (mkCodec true) false rfl]
  decide

/-! Output length and remainder behaviour. -/

lemma compress_out_length (c : DFPWMCodec) (l : List Nat) :
    (compress_pcm_s8_to_dfpwm c l).1.length = l.length / 8 := by
  induction c, l using compress_pcm_s8_to_dfpwm.induct with
  | case1 c b0 b1 b2 b3 b4 b5 b6 b7 rest r ih =>
    simp only [compress_cons, List.length_cons, ih]
    omega
  | case2 t c h =>
    have hlt := length_lt_of_no_group t h
    rw [compress_short c t hlt]
    simp [Nat.div_eq_of_lt hlt]

lemma compress_drop_tail (c : DFPWMCodec) (l : List Nat) :
    compress_pcm_s8_to_dfpwm c (l.take (l.length - l.length % 8)) =
      compress_pcm_s8_to_dfpwm c l := by
  induction c, l using compress_pcm_s8_to_dfpwm.induct with
  | case1 c b0 b1 b2 b3 b4 b5 b6 b7 rest r ih =>
    have hn : (b0 :: b1 :: b2 :: b3 :: b4 :: b5 :: b6 :: b7 :: rest).length -
        (b0 :: b1 :: b2 :: b3 :: b4 :: b5 :: b6 :: b7 :: rest).length % 8 =
        (rest.length - rest.length % 8) + 8 := by
      simp only [List.length_cons]
      omega
    rw [hn]
    have ht : List.take (rest.length - rest.length % 8 + 8)
        (b0 :: b1 :: b2 :: b3 :: b4 :: b5 :: b6 :: b7 :: rest) =
        b0 :: b1 :: b2 :: b3 :: b4 :: b5 :: b6 :: b7 ::
          List.take (rest.length - rest.length % 8) rest := rfl
    rw [ht, compress_cons, compress_cons]
    simp only [ih]
  | case2 t c h =>
    have hlt := length_lt_of_no_group t h
    have h0 : t.length - t.length % 8 = 0 := by omega
    rw [h0, List.take_zero, compress_short c t hlt]
    rfl

lemma compress_append_of_mod (c : DFPWMCodec) (l1 l2 : List Nat) (h : l1.length % 8 = 0) :
    compress_pcm_s8_to_dfpwm c (l1 ++ l2) =
      ((compress_pcm_s8_to_dfpwm c l1).1 ++
        (compress_pcm_s8_to_dfpwm (compress_pcm_s8_to_dfpwm c l1).2 l2).1,
       (compress_pcm_s8_to_dfpwm (compress_pcm_s8_to_dfpwm c l1).2 l2).2) := by
  induction c, l1 using compress_pcm_s8_to_dfpwm.induct with
  | case1 c b0 b1 b2 b3 b4 b5 b6 b7 rest r ih =>
    have hr : rest.length % 8 = 0 := by
      simp only [List.length_cons] at h
      omega
    simp only [List.cons_append, compress_cons, ih hr]
  | case2 t c hng =>
    have hlt := length_lt_of_no_group t hng
    have h0 : t = [] := List.eq_nil_of_length_eq_zero (by omega)
    subst h0
    simp [compress_short]

/-- Claim C2: encoding is total, the output has exactly length / 8 bytes for
an input of that length, fewer than 8 input bytes give empty output, and the
trailing length % 8 bytes are dropped without affecting the output or the
carried state (so they are not seen by a subsequent call either). -/
theorem c2_length_law (c : DFPWMCodec) (l : List Nat) :
    (compress_pcm_s8_to_dfpwm c l).1.length = l.length / 8 ∧
    (l.length < 8 → (compress_pcm_s8_to_dfpwm c l).1 = []) ∧
    compress_pcm_s8_to_dfpwm c (l.take (l.length - l.length % 8)) =
      compress_pcm_s8_to_dfpwm c l := by
  refine ⟨compress_out_length c l, fun h => ?_, compress_drop_tail c l⟩
  rw [compress_short c l h]

/-- Witness for C2 at a 7-byte input: empty output of length 0. -/
theorem c2_length_law_witness :
    (compress_pcm_s8_to_dfpwm (mkCodec true) [1, 2, 3, 4, 5, 6, 7]).1.length = 0 ∧
    (compress_pcm_s8_to_dfpwm (mkCodec true) [1, 2, 3, 4, 5, 6, 7]).1 = [] := by
  have h := c2_length_law (mkCodec true) [1, 2, 3, 4, 5, 6, 7]
  exact ⟨h.1, h.2.1 (by norm_num)⟩

/-- Claim C6: encoding 16 samples in one call on a state equals encoding the
first 8 then the next 8 while carrying the state between the calls, and there
is an input on which this differs from encoding each half with its own fresh
state. -/
theorem c6_state_carry :
    (∀ (c : DFPWMCodec) (l1 l2 : List Nat), l1.length = 8 → l2.length = 8 →
      compress_pcm_s8_to_dfpwm c (l1 ++ l2) =
        ((compress_pcm_s8_to_dfpwm c l1).1 ++
          (compress_pcm_s8_to_dfpwm (compress_pcm_s8_to_dfpwm c l1).2 l2).1,
         (compress_pcm_s8_to_dfpwm (compress_pcm_s8_to_dfpwm c l1).2 l2).2)) ∧
    (∃ l1 l2 : List Nat, l1.length = 8 ∧ l2.length = 8 ∧
      (compress_pcm_s8_to_dfpwm (mkCodec true) (l1 ++ l2)).1 ≠
        (compress_pcm_s8_to_dfpwm (mkCodec true) l1).1 ++
          (compress_pcm_s8_to_dfpwm (mkCodec true) l2).1) := by
  constructor
  · intro c l1 l2 h1 _
    exact compress_append_of_mod c l1 l2 (by omega)
  · exact ⟨[10, 20, 30, 40, 50, 60, 70, 80], [10, 20, 30, 40, 50, 60, 70, 80],
      rfl, rfl, by decide⟩

/-- Witness for C6 at two concrete 8-byte halves. -/
theorem c6_state_carry_witness :
    compress_pcm_s8_to_dfpwm (mkCodec true)
        ([10, 20, 30, 40, 50, 60, 70, 80] ++ [11, 21, 31, 41, 51, 61, 71, 81]) =
      ((compress_pcm_s8_to_dfpwm (mkCodec true) [10, 20, 30, 40, 50, 60, 70, 80]).1 ++
        (compress_pcm_s8_to_dfpwm
          (compress_pcm_s8_to_dfpwm (mkCodec true) [10, 20, 30, 40, 50, 60, 70, 80]).2
          [11, 21, 31, 41, 51, 61, 71, 81]).1,
       (compress_pcm_s8_to_dfpwm
         (compress_pcm_s8_to_dfpwm (mkCodec true) [10, 20, 30, 40, 50, 60, 70, 80]).2
         [11, 21, 31, 41, 51, 61, 71, 81]).2) :=
  c6_state_carry.1 (mkCodec true) _ _ rfl rfl

/-! Bit packing: the inner loop builds the byte low bit first. -/

lemma foldl_encStep_eq (bs : List Nat) : ∀ (c : DFPWMCodec) (d : Nat),
    bs.foldl encStep (d, c) =
      ((groupBits c bs).foldl packStep d, (groupBits c bs).foldl ctx_update c) := by
  induction bs with
  | nil => intro c d; rfl
  | cons b bs ih =>
    intro c d
    simp only [List.foldl_cons, groupBits]
    exact ih (ctx_update c (curbitOf c (toSigned b))) (packStep d (curbitOf c (toSigned b)))

lemma foldl_packStep_lt (bs : List Bool) : ∀ d : Nat, d < 256 → bs.foldl packStep d < 256 := by
  induction bs with
  | nil => intro d h; exact h
  | cons b bs ih =>
    intro d h
    refine ih _ ?_
    have hs : d >>> 1 = d / 2 := Nat.shiftRight_eq_div_pow d 1
    simp only [packStep, hs]
    cases b
    all_goals simp
    all_goals omega

lemma packBits_lt (bs : List Bool) : packBits bs < 256 :=
  foldl_packStep_lt bs 0 (by norm_num)

lemma and_255_of_lt (d : Nat) (h : d < 256) : d &&& 255 = d := by
  have hm := Nat.and_pow_two_sub_one_eq_mod d 8
  norm_num at hm
  rw [hm]
  exact Nat.mod_eq_of_lt h

lemma packBits_def (bs : List Bool) : bs.foldl packStep 0 = packBits bs := rfl

lemma packBits_testBit_eight :
    ∀ (b0 b1 b2 b3 b4 b5 b6 b7 : Bool) (i : Nat), i < 8 →
      (packBits [b0, b1, b2, b3, b4, b5, b6, b7]).testBit i =
        [b0, b1, b2, b3, b4, b5, b6, b7].getD i false := by
  decide

lemma groupBits_length (bs : List Nat) : ∀ c : DFPWMCodec, (groupBits c bs).length = bs.length := by
  induction bs with
  | nil => intro c; rfl
  | cons b bs ih => intro c; simp [groupBits, ih]

lemma list_eight {α : Type} (bs : List α) (h : bs.length = 8) :
    ∃ a0 a1 a2 a3 a4 a5 a6 a7 : α, bs = [a0, a1, a2, a3, a4, a5, a6, a7] := by
  rcases bs with _ | ⟨a0, bs⟩
  · simp at h
  rcases bs with _ | ⟨a1, bs⟩
  · simp at h
  rcases bs with _ | ⟨a2, bs⟩
  · simp at h
  rcases bs with _ | ⟨a3, bs⟩
  · simp at h
  rcases bs with _ | ⟨a4, bs⟩
  · simp at h
  rcases bs with _ | ⟨a5, bs⟩
  · simp at h
  rcases bs with _ | ⟨a6, bs⟩
  · simp at h
  rcases bs with _ | ⟨a7, bs⟩
  · simp at h
  rcases bs with _ | ⟨a8, bs⟩
  · exact ⟨a0, a1, a2, a3, a4, a5, a6, a7, rfl⟩
  · simp only [List.length_cons] at h
    omega

/-- Claim C7: the byte emitted for a group of 8 samples is exactly the
shift/or fold of its 8 decision bits (packBits is that fold), so the first
decided bit of the group lands in bit 0 of the byte and the last decided bit
in bit 7. -/
theorem c7_bit_packing (c : DFPWMCodec) (g : List Nat) (h : g.length = 8) :
    (compress_pcm_s8_to_dfpwm c g).1 = [packBits (groupBits c g)] ∧
    (∀ i, i < 8 → (packBits (groupBits c g)).testBit i = (groupBits c g).getD i false) := by
  constructor
  · obtain ⟨b0, b1, b2, b3, b4, b5, b6, b7, rfl⟩ := list_eight g h
    rw [show ([b0, b1, b2, b3, b4, b5, b6, b7] : List Nat) =
      b0 :: b1 :: b2 :: b3 :: b4 :: b5 :: b6 :: b7 :: [] from rfl, compress_cons]
    simp only [foldl_encStep_eq, compress_short _ [] (by norm_num), packBits_def]
    rw [and_255_of_lt _ (packBits_lt _)]
  · have hlen : (groupBits c g).length = 8 := by rw [groupBits_length]; exact h
    obtain ⟨u0, u1, u2, u3, u4, u5, u6, u7, hu⟩ := list_eight (groupBits c g) hlen
    rw [hu]
    exact packBits_testBit_eight u0 u1 u2 u3 u4 u5 u6 u7

/-- Witness for C7 at a concrete group and a concrete bit position. -/
theorem c7_bit_packing_witness :
    (compress_pcm_s8_to_dfpwm (mkCodec true) [10, 20, 30, 40, 50, 60, 70, 80]).1 =
      [packBits (groupBits (mkCodec true) [10, 20, 30, 40, 50, 60, 70, 80])] ∧
    (packBits (groupBits (mkCodec true) [10, 20, 30, 40, 50, 60, 70, 80])).testBit 0 =
      (groupBits (mkCodec true) [10, 20, 30, 40, 50, 60, 70, 80]).getD 0 false :=
  ⟨(c7_bit_packing (mkCodec true) [10, 20, 30, 40, 50, 60, 70, 80] rfl).1,
   (c7_bit_packing (mkCodec true) [10, 20, 30, 40, 50, 60, 70, 80] rfl).2 0 (by norm_num)⟩

/-! The byte entry point agrees with the signed-sample transform. -/

lemma compressSamples_short (c : DFPWMCodec) (l : List Int) (h : l.length < 8) :
    compressSamples c l = ([], c) := by
  rcases l with _ | ⟨a0, l⟩
  · rfl
  rcases l with _ | ⟨a1, l⟩
  · rfl
  rcases l with _ | ⟨a2, l⟩
  · rfl
  rcases l with _ | ⟨a3, l⟩
  · rfl
  rcases l with _ | ⟨a4, l⟩
  · rfl
  rcases l with _ | ⟨a5, l⟩
  · rfl
  rcases l with _ | ⟨a6, l⟩
  · rfl
  rcases l with _ | ⟨a7, l⟩
  · rfl
  simp only [List.length_cons] at h
  omega

lemma encStep_eq_sample (p : Nat × DFPWMCodec) (b : Nat) :
    encStep p b = encStepSample p (toSigned b) := rfl

lemma compressSamples_cons (c : DFPWMCodec) (s0 s1 s2 s3 s4 s5 s6 s7 : Int) (rest : List Int) :
    compressSamples c (s0 :: s1 :: s2 :: s3 :: s4 :: s5 :: s6 :: s7 :: rest) =
      (let r := [s0, s1, s2, s3, s4, s5, s6, s7].foldl encStepSample (0, c)
       let s := compressSamples r.2 rest
       ((r.1 &&& 255) :: s.1, s.2)) := rfl

lemma compress_eq_samples (c : DFPWMCodec) (l : List Nat) :
    compress_pcm_s8_to_dfpwm c l = compressSamples c (l.map toSigned) := by
  induction c, l using compress_pcm_s8_to_dfpwm.induct with
  | case1 c b0 b1 b2 b3 b4 b5 b6 b7 rest r ih =>
    have hrr : List.foldl encStepSample ((0 : Nat), c)
        [toSigned b0, toSigned b1, toSigned b2, toSigned b3,
         toSigned b4, toSigned b5, toSigned b6, toSigned b7] =
        List.foldl encStep ((0 : Nat), c) [b0, b1, b2, b3, b4, b5, b6, b7] := rfl
    simp only [List.map_cons, compress_cons, compressSamples_cons, hrr, ih]
  | case2 t c h =>
    have hlt := length_lt_of_no_group t h
    rw [compress_short c t hlt, compressSamples_short c (t.map toSigned) (by simpa using hlt)]

/-- Claim C10: the encoder accepts any byte string; a byte b in 128..255 is
read as the signed sample b - 256, and on any byte string the result equals
the signed-sample transform applied to the decoded sample sequence. -/
theorem c10_byte_interp :
    (∀ b : Nat, 128 ≤ b → b ≤ 255 → toSigned b = (b : Int) - 256) ∧
    (∀ (c : DFPWMCodec) (l : List Nat), (∀ b ∈ l, b ≤ 255) →
      compress_pcm_s8_to_dfpwm c l = compressSamples c (l.map toSigned)) := by
  refine ⟨fun b h1 _ => ?_, fun c l _ => compress_eq_samples c l⟩
  rw [toSigned, if_pos (by omega)]

/-- Witness for C10 at byte 200 and a concrete buffer with bytes above 127. -/
theorem c10_byte_interp_witness :
    toSigned 200 = (200 : Int) - 256 ∧
    compress_pcm_s8_to_dfpwm (mkCodec true) [0, 1, 2, 3, 4, 5, 250, 251] =
      compressSamples (mkCodec true) ([0, 1, 2, 3, 4, 5, 250, 251].map toSigned) :=
  ⟨c10_byte_interp.1 200 (by norm_num) (by norm_num),
   c10_byte_interp.2 (mkCodec true) _ (by decide)⟩


def InvMode (c : DFPWMCodec) : Prop :=
  (c.dfpwm_old = false ∧ c.RESP_INC = 1 ∧ c.RESP_DEC = 1 ∧ c.RESP_PREC = 10) ∨
  (c.dfpwm_old = true ∧ c.RESP_INC = 7 ∧ c.RESP_DEC = 20 ∧ c.RESP_PREC = 8)

def CodecInv (c : DFPWMCodec) : Prop :=
  InvMode c ∧ -128 ≤ c.level ∧ c.level ≤ 127 ∧
    0 ≤ c.response ∧ c.response ≤ 2 ^ c.RESP_PREC - 1

lemma inv_mk (newdfpwm : Bool) : CodecInv (mkCodec newdfpwm) := by
  cases newdfpwm
  · exact ⟨Or.inr ⟨rfl, rfl, rfl, rfl⟩, by decide, by decide, by decide, by decide⟩
  · exact ⟨Or.inl ⟨rfl, rfl, rfl, rfl⟩, by decide, by decide, by decide, by decide⟩

lemma nlevelOf_mem (c : DFPWMCodec) (b : Bool)
    (hprec : c.RESP_PREC = 10 ∨ c.RESP_PREC = 8)
    (hl1 : -128 ≤ c.level) (hl2 : c.level ≤ 127)
    (hr1 : 0 ≤ c.response) (hr2 : c.response ≤ 2 ^ c.RESP_PREC - 1) :
    -128 ≤ nlevelOf c b ∧ nlevelOf c b ≤ 127 := by
  rcases hprec with hp | hp
  · rw [hp] at hr2
    norm_num at hr2
    unfold nlevelOf targetOf
    rw [hp]
    have hsh : ∀ x : Int, x >>> (10 : Nat) = x / 1024 := by
      intro x
      rw [Int.shiftRight_eq_div_pow]
      norm_num
    cases b
    · norm_num [hsh]
      have he : (-128 : Int) - c.level ≤ 0 := by omega
      have hq0 : c.response * (-128 - c.level) ≤ 0 := mul_nonpos_iff.mpr (Or.inl ⟨hr1, he⟩)
      have hq1 : 1023 * (-128 - c.level) ≤ c.response * (-128 - c.level) :=
        mul_le_mul_of_nonpos_right hr2 he
      set q := c.response * (-128 - c.level) with hqdef
      constructor <;> split <;> omega
    · norm_num [hsh]
      have he : (0 : Int) ≤ 127 - c.level := by omega
      have hq0 : 0 ≤ c.response * (127 - c.level) := mul_nonneg hr1 he
      have hq1 : c.response * (127 - c.level) ≤ 1023 * (127 - c.level) :=
        mul_le_mul_of_nonneg_right hr2 he
      set q := c.response * (127 - c.level) with hqdef
      constructor <;> split <;> omega
  · rw [hp] at hr2
    norm_num at hr2
    unfold nlevelOf targetOf
    rw [hp]
    have hsh : ∀ x : Int, x >>> (8 : Nat) = x / 256 := by
      intro x
      rw [Int.shiftRight_eq_div_pow]
      norm_num
    cases b
    · norm_num [hsh]
      have he : (-128 : Int) - c.level ≤ 0 := by omega
      have hq0 : c.response * (-128 - c.level) ≤ 0 := mul_nonpos_iff.mpr (Or.inl ⟨hr1, he⟩)
      have hq1 : 255 * (-128 - c.level) ≤ c.response * (-128 - c.level) :=
        mul_le_mul_of_nonpos_right hr2 he
      set q := c.response * (-128 - c.level) with hqdef
      constructor <;> split <;> omega
    · norm_num [hsh]
      have he : (0 : Int) ≤ 127 - c.level := by omega
      have hq0 : 0 ≤ c.response * (127 - c.level) := mul_nonneg hr1 he
      have hq1 : c.response * (127 - c.level) ≤ 255 * (127 - c.level) :=
        mul_le_mul_of_nonneg_right hr2 he
      set q := c.response * (127 - c.level) with hqdef
      constructor <;> split <;> omega

lemma response_bounds (c : DFPWMCodec) (b : Bool) (hm : InvMode c)
    (hr1 : 0 ≤ c.response) (hr2 : c.response ≤ 2 ^ c.RESP_PREC - 1) :
    0 ≤ (ctx_update c b).response ∧ (ctx_update c b).response ≤ 2 ^ c.RESP_PREC - 1 := by
  rw [ctx_update_response]
  rcases hm with ⟨hold, hinc, hdec, hp⟩ | ⟨hold, hinc, hdec, hp⟩
  · rw [hp] at hr2
    norm_num at hr2
    unfold nresponsePre rparamsOf minResponse
    rw [hp, hold]
    norm_num
    cases heq : (b == c.lastbit)
    · simp only [heq, Bool.false_eq_true, if_false, hdec]
      split <;> split <;> omega
    · simp only [heq, if_true, hinc]
      split <;> split <;> omega
  · rw [hp] at hr2
    norm_num at hr2
    unfold nresponsePre rparamsOf
    rw [hp, hold]
    have hsh : ∀ x : Int, x >>> (8 : Nat) = x / 256 := by
      intro x
      rw [Int.shiftRight_eq_div_pow]
      norm_num
    cases heq : (b == c.lastbit)
    · norm_num [hsh, hdec]
      split <;> omega
    · norm_num [hsh, hinc]
      split <;> omega

lemma ctx_update_inv (c : DFPWMCodec) (b : Bool) (h : CodecInv c) : CodecInv (ctx_update c b) := by
  obtain ⟨hm, hl1, hl2, hr1, hr2⟩ := h
  have hprec : c.RESP_PREC = 10 ∨ c.RESP_PREC = 8 := by
    rcases hm with ⟨_, _, _, hp⟩ | ⟨_, _, _, hp⟩
    · exact Or.inl hp
    · exact Or.inr hp
  have hl := nlevelOf_mem c b hprec hl1 hl2 hr1 hr2
  have hr := response_bounds c b hm hr1 hr2
  refine ⟨?_, ?_, ?_, hr.1, ?_⟩
  · rcases hm with ⟨h1, h2, h3, h4⟩ | ⟨h1, h2, h3, h4⟩
    · exact Or.inl ⟨by rw [ctx_update_old, h1], by rw [ctx_update_inc, h2],
        by rw [ctx_update_dec, h3], by rw [ctx_update_prec, h4]⟩
    · exact Or.inr ⟨by rw [ctx_update_old, h1], by rw [ctx_update_inc, h2],
        by rw [ctx_update_dec, h3], by rw [ctx_update_prec, h4]⟩
  · rw [ctx_update_level]
    exact hl.1
  · rw [ctx_update_level]
    exact hl.2
  · rw [ctx_update_prec]
    exact hr.2

lemma foldl_ctx_update_inv (bits : List Bool) :
    ∀ c : DFPWMCodec, CodecInv c → CodecInv (bits.foldl ctx_update c) := by
  induction bits with
  | nil => intro c h; exact h
  | cons b bits ih => intro c h; exact ih _ (ctx_update_inv c b h)

lemma compress_inv (c : DFPWMCodec) (l : List Nat) (h : CodecInv c) :
    CodecInv (compress_pcm_s8_to_dfpwm c l).2 := by
  induction c, l using compress_pcm_s8_to_dfpwm.induct with
  | case1 c b0 b1 b2 b3 b4 b5 b6 b7 rest r ih =>
    have hr2 : r.2 = (groupBits c [b0, b1, b2, b3, b4, b5, b6, b7]).foldl ctx_update c := by
      show (List.foldl encStep (0, c) [b0, b1, b2, b3, b4, b5, b6, b7]).2 = _
      rw [foldl_encStep_eq]
    have hinv : CodecInv r.2 := by
      rw [hr2]
      exact foldl_ctx_update_inv _ c h
    rw [compress_cons]
    exact ih hinv
  | case2 t c hng =>
    rw [compress_short c t (length_lt_of_no_group t hng)]
    exact h

/-- Claim C9: starting from a fresh state in either mode, the predictor level
stays in [-128, 127]: after any sequence of per-sample context updates, and in
particular in the state carried out of any encode call. -/
theorem c9_level_range (newdfpwm : Bool) (bits : List Bool) (pcm : List Nat) :
    (-128 ≤ (bits.foldl ctx_update (mkCodec newdfpwm)).level ∧
      (bits.foldl ctx_update (mkCodec newdfpwm)).level ≤ 127) ∧
    (-128 ≤ (compress_pcm_s8_to_dfpwm (mkCodec newdfpwm) pcm).2.level ∧
      (compress_pcm_s8_to_dfpwm (mkCodec newdfpwm) pcm).2.level ≤ 127) := by
  have h1 := foldl_ctx_update_inv bits (mkCodec newdfpwm) (inv_mk newdfpwm)
  have h2 := compress_inv (mkCodec newdfpwm) pcm (inv_mk newdfpwm)
  exact ⟨⟨h1.2.1, h1.2.2.1⟩, ⟨h2.2.1, h2.2.2.1⟩⟩

/-! Constant extreme inputs: every decision bit is forced. -/

lemma curbit_127 (c : DFPWMCodec) (h : c.level ≤ 127) :
    curbitOf c (toSigned 127) = true := by
  have ht : toSigned 127 = 127 := rfl
  rw [ht]
  simp only [curbitOf, Bool.or_eq_true, Bool.and_eq_true, decide_eq_true_eq]
  omega

lemma curbit_128 (c : DFPWMCodec) (h : -128 ≤ c.level) :
    curbitOf c (toSigned 128) = false := by
  have ht : toSigned 128 = -128 := rfl
  rw [ht]
  simp only [curbitOf, Bool.or_eq_false_iff, Bool.and_eq_false_iff,
    decide_eq_false_iff_not]
  omega

lemma groupBits_127 (n : Nat) : ∀ c : DFPWMCodec, CodecInv c →
    groupBits c (List.replicate n 127) = List.replicate n true := by
  induction n with
  | zero => intro c _; rfl
  | succ n ih =>
    intro c h
    rw [List.replicate_succ, List.replicate_succ]
    simp only [groupBits, curbit_127 c h.2.2.1]
    exact congrArg (true :: ·) (ih _ (ctx_update_inv c true h))

lemma groupBits_128 (n : Nat) : ∀ c : DFPWMCodec, CodecInv c →
    groupBits c (List.replicate n 128) = List.replicate n false := by
  induction n with
  | zero => intro c _; rfl
  | succ n ih =>
    intro c h
    rw [List.replicate_succ, List.replicate_succ]
    simp only [groupBits, curbit_128 c h.2.1]
    exact congrArg (false :: ·) (ih _ (ctx_update_inv c false h))

lemma compress_127 (L : Nat) : ∀ c : DFPWMCodec, CodecInv c →
    (compress_pcm_s8_to_dfpwm c (List.replicate L 127)).1 = List.replicate (L / 8) 255 := by
  induction L using Nat.strong_induction_on with
  | _ L ih =>
    intro c h
    by_cases hL : L < 8
    · rw [compress_short c _ (by simpa using hL), Nat.div_eq_of_lt hL]
      rfl
    · obtain ⟨m, rfl⟩ : ∃ m, L = m + 8 := ⟨L - 8, by omega⟩
      have hrep : List.replicate (m + 8) (127 : Nat) =
          127 :: 127 :: 127 :: 127 :: 127 :: 127 :: 127 :: 127 :: List.replicate m 127 := rfl
      rw [hrep, compress_cons]
      have hgrp : ([127, 127, 127, 127, 127, 127, 127, 127] : List Nat) =
          List.replicate 8 127 := rfl
      have hfold := foldl_encStep_eq [127, 127, 127, 127, 127, 127, 127, 127] c 0
      have hbits : groupBits c [127, 127, 127, 127, 127, 127, 127, 127] =
          [true, true, true, true, true, true, true, true] := by
        rw [hgrp, groupBits_127 8 c h]
        rfl
      have hfst : (List.foldl encStep (0, c) [127, 127, 127, 127, 127, 127, 127, 127]).1 = 255 := by
        rw [hfold, hbits]
        rfl
      have hsnd : CodecInv (List.foldl encStep (0, c) [127, 127, 127, 127, 127, 127, 127, 127]).2 := by
        rw [hfold, hbits]
        exact foldl_ctx_update_inv _ c h
      simp only [hfst, hsnd, ih m (by omega) _ hsnd]
      have hdiv : (m + 8) / 8 = m / 8 + 1 := by omega
      rw [hdiv, List.replicate_succ]
      rfl

lemma compress_128 (L : Nat) : ∀ c : DFPWMCodec, CodecInv c →
    (compress_pcm_s8_to_dfpwm c (List.replicate L 128)).1 = List.replicate (L / 8) 0 := by
  induction L using Nat.strong_induction_on with
  | _ L ih =>
    intro c h
    by_cases hL : L < 8
    · rw [compress_short c _ (by simpa using hL), Nat.div_eq_of_lt hL]
      rfl
    · obtain ⟨m, rfl⟩ : ∃ m, L = m + 8 := ⟨L - 8, by omega⟩
      have hrep : List.replicate (m + 8) (128 : Nat) =
          128 :: 128 :: 128 :: 128 :: 128 :: 128 :: 128 :: 128 :: List.replicate m 128 := rfl
      rw [hrep, compress_cons]
      have hgrp : ([128, 128, 128, 128, 128, 128, 128, 128] : List Nat) =
          List.replicate 8 128 := rfl
      have hfold := foldl_encStep_eq [128, 128, 128, 128, 128, 128, 128, 128] c 0
      have hbits : groupBits c [128, 128, 128, 128, 128, 128, 128, 128] =
          [false, false, false, false, false, false, false, false] := by
        rw [hgrp, groupBits_128 8 c h]
        rfl
      have hfst : (List.foldl encStep (0, c) [128, 128, 128, 128, 128, 128, 128, 128]).1 = 0 := by
        rw [hfold, hbits]
        rfl
      have hsnd : CodecInv (List.foldl encStep (0, c) [128, 128, 128, 128, 128, 128, 128, 128]).2 := by
        rw [hfold, hbits]
        exact foldl_ctx_update_inv _ c h
      simp only [hfst, hsnd, ih m (by omega) _ hsnd]
      have hdiv : (m + 8) / 8 = m / 8 + 1 := by omega
      rw [hdiv, List.replicate_succ]
      rfl

/-- Claim C8: encoding a constant 127 input (byte 127) from a fresh state
yields output bytes that are all 255 from some index N on, and a constant
-128 input (byte 128) yields output bytes that are all 0 from some index on;
in fact N = 0 works, every output byte is already at the steady value. -/
theorem c8_extremes :
    ∃ N : Nat, ∀ L : Nat,
      (∀ x ∈ ((compress_pcm_s8_to_dfpwm (mkCodec true) (List.replicate L 127)).1).drop N,
        x = 255) ∧
      (∀ x ∈ ((compress_pcm_s8_to_dfpwm (mkCodec true) (List.replicate L 128)).1).drop N,
        x = 0) := by
  refine ⟨0, fun L => ⟨?_, ?_⟩⟩
  · rw [List.drop_zero, compress_127 L (mkCodec true) (inv_mk true)]
    intro x hx
    exact List.eq_of_mem_replicate hx
  · rw [List.drop_zero, compress_128 L (mkCodec true) (inv_mk true)]
    intro x hx
    exact List.eq_of_mem_replicate hx

/-- Witness for C3: sample 5 against the fresh level 0 decides true. -/
theorem c3_bit_decision_witness :
    curbitOf (mkCodec true) 5 = true ∧ curbitOf (mkCodec true) (toSigned 0) = false :=
  ⟨(c3_bit_decision.1 (mkCodec true) 5).mpr (Or.inl (by decide)), c3_bit_decision.2⟩

/-- Witness for C4 at the fresh current-mode codec and a true bit. -/
theorem c4_level_update_witness :
    nlevelOf (mkCodec true) true =
      (let target := targetOf true
       let raw := (mkCodec true).level +
         Int.fdiv ((mkCodec true).response * (target - (mkCodec true).level) +
           2 ^ ((mkCodec true).RESP_PREC - 1)) (2 ^ (mkCodec true).RESP_PREC)
       if raw = (mkCodec true).level ∧ (mkCodec true).level ≠ target then
         raw + (if true then 1 else -1) else raw) :=
  c4_level_update (mkCodec true) true

/-- Witness for C8 at a concrete 16-sample constant input. -/
theorem c8_extremes_witness :
    ∃ N : Nat,
      (∀ x ∈ ((compress_pcm_s8_to_dfpwm (mkCodec true) (List.replicate 16 127)).1).drop N,
        x = 255) ∧
      (∀ x ∈ ((compress_pcm_s8_to_dfpwm (mkCodec true) (List.replicate 16 128)).1).drop N,
        x = 0) := by
  obtain ⟨N, hN⟩ := c8_extremes
  exact ⟨N, (hN 16).1, (hN 16).2⟩

/-- Witness for C9 at a concrete bit sequence and byte buffer. -/
theorem c9_level_range_witness :
    (-128 ≤ ([true, false, true].foldl ctx_update (mkCodec true)).level ∧
      ([true, false, true].foldl ctx_update (mkCodec true)).level ≤ 127) ∧
    (-128 ≤ (compress_pcm_s8_to_dfpwm (mkCodec true) [1, 2, 3]).2.level ∧
      (compress_pcm_s8_to_dfpwm (mkCodec true) [1, 2, 3]).2.level ≤ 127) :=
  c9_level_range true [true, false, true] [1, 2, 3]
